import Mathlib

/-!
Verification of the association-statistics and chord-layout core of the
YSO plotting tool.

A pair of equal-length categorical series `x, y` is embedded as the list of
paired observations `x.zip y : List (ℕ × ℕ)` (categories are coded as
naturals; `pd.crosstab` pairs the two series elementwise).  The contingency
table of the pair list `l` has row labels `rowsF l` (the distinct first
components), column labels `colsF l`, and cell counts `obs l a b`.

`chi2_stat` embeds `scipy.stats.chi2_contingency(table)[0]`:
* expected frequencies are `row marginal * column marginal / table total`;
* when `dof = (rows-1)*(cols-1) = 0` scipy returns the statistic 0;
* when `dof = 1` (a 2×2 table) scipy applies Yates' continuity correction,
  moving each observed count toward its expected count by
  `min(1/2, |expected - observed|)`.

Floating-point arithmetic is idealised as exact arithmetic: the rational
core is computed in `ℚ` and `np.sqrt` becomes `Real.sqrt`.
-/

namespace YSOPlot

/-- Cell count of the contingency table of the pair list `l`:
the number of paired observations equal to `(a, b)`. -/
def obs (l : List (ℕ × ℕ)) (a b : ℕ) : ℕ := l.count (a, b)

/-- Row labels of the contingency table: distinct values of the first series. -/
def rowsF (l : List (ℕ × ℕ)) : Finset ℕ := (l.map Prod.fst).toFinset

/-- Column labels of the contingency table: distinct values of the second series. -/
def colsF (l : List (ℕ × ℕ)) : Finset ℕ := (l.map Prod.snd).toFinset

/-- Row marginal: number of observations whose first component is `a`. -/
def rowMarg (l : List (ℕ × ℕ)) (a : ℕ) : ℕ := (l.map Prod.fst).count a

/-- Column marginal: number of observations whose second component is `b`. -/
def colMarg (l : List (ℕ × ℕ)) (b : ℕ) : ℕ := (l.map Prod.snd).count b

/-- Number of rows of the contingency table (`confusion_matrix.shape[0]`). -/
def nrows (l : List (ℕ × ℕ)) : ℕ := (rowsF l).card

/-- Number of columns of the contingency table (`confusion_matrix.shape[1]`). -/
def ncols (l : List (ℕ × ℕ)) : ℕ := (colsF l).card

/-- Total count of the table, `confusion_matrix.sum().sum()`. -/
def tableTotal (l : List (ℕ × ℕ)) : ℕ :=
  ∑ a ∈ rowsF l, ∑ b ∈ colsF l, obs l a b

/-- Degrees of freedom of the independence test, `(rows - 1) * (cols - 1)`. -/
def dof (l : List (ℕ × ℕ)) : ℕ := (nrows l - 1) * (ncols l - 1)

/-- Expected cell frequency under independence:
row marginal times column marginal over the table total. -/
def expectedFreq (l : List (ℕ × ℕ)) (a b : ℕ) : ℚ :=
  (rowMarg l a * colMarg l b : ℚ) / (tableTotal l : ℚ)

/-- Yates continuity adjustment of an observed count, as scipy applies it for
2×2 tables: move `O` toward `E` by `min(1/2, |E - O|)`. -/
def yatesAdj (O E : ℚ) : ℚ :=
  O + (if O < E then 1 else if E < O then -1 else 0) * min (1 / 2) |E - O|

/-- Contribution of cell `(a, b)` to the chi-squared statistic,
with Yates' correction applied exactly when `dof = 1`. -/
def cellChi2 (l : List (ℕ × ℕ)) (a b : ℕ) : ℚ :=
  let O : ℚ := obs l a b
  let E : ℚ := expectedFreq l a b
  let Oc : ℚ := if dof l = 1 then yatesAdj O E else O
  (Oc - E) ^ 2 / E

/-- The chi-squared statistic `chi2_contingency(confusion_matrix)[0]` of the
contingency table of the pair list `l`. -/
def chi2_stat (l : List (ℕ × ℕ)) : ℚ :=
  if dof l = 0 then 0
  else ∑ a ∈ rowsF l, ∑ b ∈ colsF l, cellChi2 l a b

/-- The quantity `min(confusion_matrix.shape) - 1`, the normalising dimension of Cramér's V. -/
def minDim (l : List (ℕ × ℕ)) : ℤ := min (nrows l) (ncols l) - 1

/-- Function `cramers_v(x, y)` from `generate_cachai_effect_sizes.py` (the identical
function also appears in `generate_improved_visualizations.py`):
build the contingency table, compute the chi-squared statistic, and return
`0` when `min_dim == 0`, else `sqrt(chi2 / (n * min_dim))` where `n` is the
table total. -/
noncomputable def cramers_v (x y : List ℕ) : ℝ :=
  let l := x.zip y
  if minDim l = 0 then 0
  else Real.sqrt ((chi2_stat l / (tableTotal l * (minDim l : ℚ)) : ℚ) : ℝ)

/-- Function `phi_coefficient(x, y)` from `generate_cachai_effect_sizes.py`:
`sqrt(chi2 / n)` with no dimension normalisation and no degenerate guard. -/
noncomputable def phi_coefficient (x y : List ℕ) : ℝ :=
  let l := x.zip y
  Real.sqrt ((chi2_stat l / (tableTotal l : ℚ) : ℚ) : ℝ)

/-! ### Counting lemmas about the contingency table -/

lemma mem_rowsF {l : List (ℕ × ℕ)} {p : ℕ × ℕ} (hp : p ∈ l) : p.1 ∈ rowsF l := by
  simp only [rowsF, List.mem_toFinset, List.mem_map]
  exact ⟨p, hp, rfl⟩

lemma mem_colsF {l : List (ℕ × ℕ)} {p : ℕ × ℕ} (hp : p ∈ l) : p.2 ∈ colsF l := by
  simp only [colsF, List.mem_toFinset, List.mem_map]
  exact ⟨p, hp, rfl⟩

lemma rowMarg_pos {l : List (ℕ × ℕ)} {a : ℕ} (ha : a ∈ rowsF l) : 0 < rowMarg l a := by
  rw [rowMarg, List.count_pos_iff]
  simpa [rowsF] using ha

lemma colMarg_pos {l : List (ℕ × ℕ)} {b : ℕ} (hb : b ∈ colsF l) : 0 < colMarg l b := by
  rw [colMarg, List.count_pos_iff]
  simpa [colsF] using hb

lemma obs_le_rowMarg (l : List (ℕ × ℕ)) (a b : ℕ) : obs l a b ≤ rowMarg l a := by
  rw [obs, rowMarg, List.count_eq_countP, List.count_eq_countP, List.countP_map]
  refine List.countP_mono_left fun p hp h => ?_
  have hpe : p = (a, b) := by simpa using h
  simp [hpe, Function.comp]

lemma obs_le_colMarg (l : List (ℕ × ℕ)) (a b : ℕ) : obs l a b ≤ colMarg l b := by
  rw [obs, colMarg, List.count_eq_countP, List.count_eq_countP, List.countP_map]
  refine List.countP_mono_left fun p hp h => ?_
  have hpe : p = (a, b) := by simpa using h
  simp [hpe, Function.comp]

/-- Summing the cell counts of a fixed row `a` over any label set containing
all observed second components yields the row marginal. -/
lemma sum_obs_eq_rowMarg (l : List (ℕ × ℕ)) (S : Finset ℕ)
    (hS : ∀ p ∈ l, p.2 ∈ S) (a : ℕ) :
    ∑ b ∈ S, obs l a b = rowMarg l a := by
  induction l with
  | nil => simp [obs, rowMarg]
  | cons p t ih =>
      obtain ⟨p1, p2⟩ := p
      have hpS : p2 ∈ S := hS (p1, p2) (List.mem_cons_self _ _)
      have ht : ∀ q ∈ t, q.2 ∈ S := fun q hq => hS q (List.mem_cons_of_mem _ hq)
      have ihh := ih ht
      simp only [obs, rowMarg, List.map_cons, List.count_cons, beq_iff_eq,
        Prod.mk.injEq] at *
      rw [Finset.sum_add_distrib, ihh]
      congr 1
      by_cases hp1 : p1 = a
      · simp only [hp1, true_and]
        rw [Finset.sum_ite_eq S p2 fun _ => 1]
        simp [hpS]
      · simp [hp1]

/-- Summing the cell counts of a fixed column `b` over any label set containing
all observed first components yields the column marginal. -/
lemma sum_obs_eq_colMarg (l : List (ℕ × ℕ)) (S : Finset ℕ)
    (hS : ∀ p ∈ l, p.1 ∈ S) (b : ℕ) :
    ∑ a ∈ S, obs l a b = colMarg l b := by
  induction l with
  | nil => simp [obs, colMarg]
  | cons p t ih =>
      obtain ⟨p1, p2⟩ := p
      have hpS : p1 ∈ S := hS (p1, p2) (List.mem_cons_self _ _)
      have ht : ∀ q ∈ t, q.1 ∈ S := fun q hq => hS q (List.mem_cons_of_mem _ hq)
      have ihh := ih ht
      simp only [obs, colMarg, List.map_cons, List.count_cons, beq_iff_eq,
        Prod.mk.injEq] at *
      rw [Finset.sum_add_distrib, ihh]
      congr 1
      by_cases hp2 : p2 = b
      · simp only [hp2, and_true]
        rw [Finset.sum_ite_eq S p1 fun _ => 1]
        simp [hpS]
      · simp [hp2]

lemma sum_rowMarg (l : List (ℕ × ℕ)) : ∑ a ∈ rowsF l, rowMarg l a = l.length := by
  simp [rowsF, rowMarg]

lemma sum_colMarg (l : List (ℕ × ℕ)) : ∑ b ∈ colsF l, colMarg l b = l.length := by
  simp [colsF, colMarg]

/-- The table total of `pd.crosstab` equals the number of paired observations. -/
lemma tableTotal_eq_length (l : List (ℕ × ℕ)) : tableTotal l = l.length := by
  rw [tableTotal]
  have h1 : ∀ a ∈ rowsF l, ∑ b ∈ colsF l, obs l a b = rowMarg l a := fun a _ =>
    sum_obs_eq_rowMarg l (colsF l) (fun p hp => mem_colsF hp) a
  rw [Finset.sum_congr rfl h1, sum_rowMarg]

/-! ### Bounds on the chi-squared statistic -/

lemma rowsF_nonempty {l : List (ℕ × ℕ)} (hl : l ≠ []) : (rowsF l).Nonempty := by
  obtain ⟨p, hp⟩ := List.exists_mem_of_ne_nil l hl
  exact ⟨p.1, mem_rowsF hp⟩

lemma colsF_nonempty {l : List (ℕ × ℕ)} (hl : l ≠ []) : (colsF l).Nonempty := by
  obtain ⟨p, hp⟩ := List.exists_mem_of_ne_nil l hl
  exact ⟨p.2, mem_colsF hp⟩

lemma length_pos_q {l : List (ℕ × ℕ)} (hl : l ≠ []) : (0 : ℚ) < (l.length : ℚ) := by
  exact_mod_cast List.length_pos.2 hl

/-- The Yates-adjusted residual is never larger in magnitude than the raw one. -/
lemma yatesAdj_sq_le (O E : ℚ) : (yatesAdj O E - E) ^ 2 ≤ (O - E) ^ 2 := by
  rw [yatesAdj]
  rcases lt_trichotomy O E with h | h | h
  · rw [if_pos h]
    have habs : |E - O| = E - O := abs_of_pos (by linarith)
    have hm0 : 0 ≤ min (1 / 2 : ℚ) (E - O) := le_min (by norm_num) (by linarith)
    have hmd : min (1 / 2 : ℚ) (E - O) ≤ E - O := min_le_right _ _
    rw [habs]
    nlinarith [mul_nonneg hm0 (sub_nonneg.2 hmd)]
  · rw [if_neg (by simp [h]), if_neg (by simp [h])]
    simp
  · rw [if_neg (by simp [asymm h]), if_pos h]
    have habs : |E - O| = O - E := by
      rw [abs_of_neg (by linarith : E - O < 0)]
      ring
    have hm0 : 0 ≤ min (1 / 2 : ℚ) (O - E) := le_min (by norm_num) (by linarith)
    have hmd : min (1 / 2 : ℚ) (O - E) ≤ O - E := min_le_right _ _
    rw [habs]
    nlinarith [mul_nonneg hm0 (sub_nonneg.2 hmd)]

lemma expectedFreq_nonneg (l : List (ℕ × ℕ)) (a b : ℕ) : 0 ≤ expectedFreq l a b := by
  rw [expectedFreq]
  positivity

lemma expectedFreq_pos {l : List (ℕ × ℕ)} (hl : l ≠ []) {a b : ℕ}
    (ha : a ∈ rowsF l) (hb : b ∈ colsF l) : 0 < expectedFreq l a b := by
  rw [expectedFreq, tableTotal_eq_length]
  have h1 : (0 : ℚ) < (rowMarg l a : ℚ) := by exact_mod_cast rowMarg_pos ha
  have h2 : (0 : ℚ) < (colMarg l b : ℚ) := by exact_mod_cast colMarg_pos hb
  have h3 := length_pos_q hl
  positivity

lemma cellChi2_nonneg (l : List (ℕ × ℕ)) (a b : ℕ) : 0 ≤ cellChi2 l a b := by
  rw [cellChi2]
  exact div_nonneg (sq_nonneg _) (expectedFreq_nonneg l a b)

lemma chi2_stat_nonneg (l : List (ℕ × ℕ)) : 0 ≤ chi2_stat l := by
  rw [chi2_stat]
  split
  · exact le_refl 0
  · exact Finset.sum_nonneg fun a _ =>
      Finset.sum_nonneg fun b _ => cellChi2_nonneg l a b

/-- Exact expansion of a (non-adjusted) chi-squared cell. -/
lemma cellChi2_le_expand {l : List (ℕ × ℕ)} (hl : l ≠ []) {a b : ℕ}
    (ha : a ∈ rowsF l) (hb : b ∈ colsF l) :
    cellChi2 l a b ≤
      (obs l a b : ℚ) ^ 2 / expectedFreq l a b
        - 2 * (obs l a b : ℚ) + expectedFreq l a b := by
  have hE := expectedFreq_pos hl ha hb
  rw [cellChi2]
  have key : ((if dof l = 1 then yatesAdj (obs l a b : ℚ) (expectedFreq l a b)
      else (obs l a b : ℚ)) - expectedFreq l a b) ^ 2
      ≤ ((obs l a b : ℚ) - expectedFreq l a b) ^ 2 := by
    split
    · exact yatesAdj_sq_le _ _
    · exact le_refl _
  have expand : ((obs l a b : ℚ) - expectedFreq l a b) ^ 2 / expectedFreq l a b =
      (obs l a b : ℚ) ^ 2 / expectedFreq l a b
        - 2 * (obs l a b : ℚ) + expectedFreq l a b := by
    field_simp
    ring
  calc _ ≤ ((obs l a b : ℚ) - expectedFreq l a b) ^ 2 / expectedFreq l a b :=
        (div_le_div_right hE).2 key
    _ = _ := expand

lemma sum_obs_q (l : List (ℕ × ℕ)) :
    ∑ a ∈ rowsF l, ∑ b ∈ colsF l, (obs l a b : ℚ) = (l.length : ℚ) := by
  have h := tableTotal_eq_length l
  rw [tableTotal] at h
  exact_mod_cast h

lemma sum_expectedFreq (l : List (ℕ × ℕ)) (hl : l ≠ []) :
    ∑ a ∈ rowsF l, ∑ b ∈ colsF l, expectedFreq l a b = (l.length : ℚ) := by
  have hN := length_pos_q hl
  simp only [expectedFreq, tableTotal_eq_length]
  have hinner : ∀ a ∈ rowsF l,
      ∑ b ∈ colsF l, ((rowMarg l a : ℚ) * (colMarg l b : ℚ)) / (l.length : ℚ)
        = (rowMarg l a : ℚ) := by
    intro a _
    rw [← Finset.sum_div, ← Finset.mul_sum]
    have hc : ∑ b ∈ colsF l, (colMarg l b : ℚ) = (l.length : ℚ) := by
      exact_mod_cast sum_colMarg l
    rw [hc, mul_div_assoc, div_self hN.ne', mul_one]
  rw [Finset.sum_congr rfl (by exact_mod_cast hinner)]
  exact_mod_cast sum_rowMarg l

/-- Column-wise bound: the independence ratio sum is at most `N * ncols`. -/
lemma sum_sq_div_le_ncols (l : List (ℕ × ℕ)) (hl : l ≠ []) :
    ∑ a ∈ rowsF l, ∑ b ∈ colsF l, (obs l a b : ℚ) ^ 2 / expectedFreq l a b
      ≤ (l.length : ℚ) * (ncols l : ℚ) := by
  have hN := length_pos_q hl
  rw [Finset.sum_comm]
  have hcol : ∀ b ∈ colsF l,
      ∑ a ∈ rowsF l, (obs l a b : ℚ) ^ 2 / expectedFreq l a b ≤ (l.length : ℚ) := by
    intro b hb
    have hC : (0 : ℚ) < (colMarg l b : ℚ) := by exact_mod_cast colMarg_pos hb
    have hcell : ∀ a ∈ rowsF l,
        (obs l a b : ℚ) ^ 2 / expectedFreq l a b
          ≤ (obs l a b : ℚ) * (l.length : ℚ) / (colMarg l b : ℚ) := by
      intro a ha
      have hR : (0 : ℚ) < (rowMarg l a : ℚ) := by exact_mod_cast rowMarg_pos ha
      have hO : (0 : ℚ) ≤ (obs l a b : ℚ) := by positivity
      have hOR : (obs l a b : ℚ) ≤ (rowMarg l a : ℚ) := by
        exact_mod_cast obs_le_rowMarg l a b
      rw [expectedFreq, tableTotal_eq_length, div_div_eq_mul_div]
      rw [div_le_div_iff (by positivity) hC]
      nlinarith [mul_nonneg (mul_nonneg (mul_nonneg (sub_nonneg.2 hOR) hO) hN.le) hC.le]
    calc ∑ a ∈ rowsF l, (obs l a b : ℚ) ^ 2 / expectedFreq l a b
        ≤ ∑ a ∈ rowsF l, (obs l a b : ℚ) * (l.length : ℚ) / (colMarg l b : ℚ) :=
          Finset.sum_le_sum hcell
      _ = (∑ a ∈ rowsF l, (obs l a b : ℚ)) * (l.length : ℚ) / (colMarg l b : ℚ) := by
          rw [← Finset.sum_div, ← Finset.sum_mul]
      _ = (l.length : ℚ) := by
          have hs : ∑ a ∈ rowsF l, (obs l a b : ℚ) = (colMarg l b : ℚ) := by
            exact_mod_cast sum_obs_eq_colMarg l (rowsF l) (fun p hp => mem_rowsF hp) b
          rw [hs, mul_comm, mul_div_assoc, div_self hC.ne', mul_one]
  calc ∑ b ∈ colsF l, ∑ a ∈ rowsF l, (obs l a b : ℚ) ^ 2 / expectedFreq l a b
      ≤ ∑ _b ∈ colsF l, (l.length : ℚ) := Finset.sum_le_sum hcol
    _ = (l.length : ℚ) * (ncols l : ℚ) := by
        rw [Finset.sum_const, nsmul_eq_mul, ncols, mul_comm]

/-- Row-wise bound: the independence ratio sum is at most `N * nrows`. -/
lemma sum_sq_div_le_nrows (l : List (ℕ × ℕ)) (hl : l ≠ []) :
    ∑ a ∈ rowsF l, ∑ b ∈ colsF l, (obs l a b : ℚ) ^ 2 / expectedFreq l a b
      ≤ (l.length : ℚ) * (nrows l : ℚ) := by
  have hN := length_pos_q hl
  have hrow : ∀ a ∈ rowsF l,
      ∑ b ∈ colsF l, (obs l a b : ℚ) ^ 2 / expectedFreq l a b ≤ (l.length : ℚ) := by
    intro a ha
    have hR : (0 : ℚ) < (rowMarg l a : ℚ) := by exact_mod_cast rowMarg_pos ha
    have hcell : ∀ b ∈ colsF l,
        (obs l a b : ℚ) ^ 2 / expectedFreq l a b
          ≤ (obs l a b : ℚ) * (l.length : ℚ) / (rowMarg l a : ℚ) := by
      intro b hb
      have hC : (0 : ℚ) < (colMarg l b : ℚ) := by exact_mod_cast colMarg_pos hb
      have hO : (0 : ℚ) ≤ (obs l a b : ℚ) := by positivity
      have hOC : (obs l a b : ℚ) ≤ (colMarg l b : ℚ) := by
        exact_mod_cast obs_le_colMarg l a b
      rw [expectedFreq, tableTotal_eq_length, div_div_eq_mul_div]
      rw [div_le_div_iff (by positivity) hR]
      nlinarith [mul_nonneg (mul_nonneg (mul_nonneg (sub_nonneg.2 hOC) hO) hN.le) hR.le]
    calc ∑ b ∈ colsF l, (obs l a b : ℚ) ^ 2 / expectedFreq l a b
        ≤ ∑ b ∈ colsF l, (obs l a b : ℚ) * (l.length : ℚ) / (rowMarg l a : ℚ) :=
          Finset.sum_le_sum hcell
      _ = (∑ b ∈ colsF l, (obs l a b : ℚ)) * (l.length : ℚ) / (rowMarg l a : ℚ) := by
          rw [← Finset.sum_div, ← Finset.sum_mul]
      _ = (l.length : ℚ) := by
          have hs : ∑ b ∈ colsF l, (obs l a b : ℚ) = (rowMarg l a : ℚ) := by
            exact_mod_cast sum_obs_eq_rowMarg l (colsF l) (fun p hp => mem_colsF hp) a
          rw [hs, mul_comm, mul_div_assoc, div_self hR.ne', mul_one]
  calc ∑ a ∈ rowsF l, ∑ b ∈ colsF l, (obs l a b : ℚ) ^ 2 / expectedFreq l a b
      ≤ ∑ _a ∈ rowsF l, (l.length : ℚ) := Finset.sum_le_sum hrow
    _ = (l.length : ℚ) * (nrows l : ℚ) := by
        rw [Finset.sum_const, nsmul_eq_mul, nrows, mul_comm]

/-- Core bound: the chi-squared statistic of any nonempty pair list is at most
`N * (min(rows, cols) - 1)`. -/
lemma chi2_stat_le (l : List (ℕ × ℕ)) (hl : l ≠ []) :
    chi2_stat l ≤ (l.length : ℚ) * ((min (nrows l) (ncols l) : ℚ) - 1) := by
  have hN := length_pos_q hl
  have hr : 1 ≤ nrows l := Finset.card_pos.2 (rowsF_nonempty hl)
  have hc : 1 ≤ ncols l := Finset.card_pos.2 (colsF_nonempty hl)
  have hmin : (1 : ℚ) ≤ (min (nrows l) (ncols l) : ℚ) := by
    have : 1 ≤ min (nrows l) (ncols l) := le_min hr hc
    exact_mod_cast this
  rw [chi2_stat]
  split
  · nlinarith
  · have step1 : ∑ a ∈ rowsF l, ∑ b ∈ colsF l, cellChi2 l a b ≤
        ∑ a ∈ rowsF l, ∑ b ∈ colsF l,
          ((obs l a b : ℚ) ^ 2 / expectedFreq l a b
            - 2 * (obs l a b : ℚ) + expectedFreq l a b) := by
      refine Finset.sum_le_sum fun a ha => Finset.sum_le_sum fun b hb => ?_
      exact cellChi2_le_expand hl ha hb
    have split2 : ∑ a ∈ rowsF l, ∑ b ∈ colsF l,
        ((obs l a b : ℚ) ^ 2 / expectedFreq l a b
          - 2 * (obs l a b : ℚ) + expectedFreq l a b)
        = (∑ a ∈ rowsF l, ∑ b ∈ colsF l, (obs l a b : ℚ) ^ 2 / expectedFreq l a b)
          - 2 * (l.length : ℚ) + (l.length : ℚ) := by
      simp only [Finset.sum_add_distrib, Finset.sum_sub_distrib, ← Finset.mul_sum]
      rw [sum_obs_q, sum_expectedFreq l hl]
    have hsq : ∑ a ∈ rowsF l, ∑ b ∈ colsF l,
        (obs l a b : ℚ) ^ 2 / expectedFreq l a b
        ≤ (l.length : ℚ) * (min (nrows l) (ncols l) : ℚ) := by
      rcases le_total (nrows l) (ncols l) with h | h
      · have := sum_sq_div_le_nrows l hl
        have hmm : (min (nrows l) (ncols l) : ℚ) = (nrows l : ℚ) :=
          min_eq_left (by exact_mod_cast h)
        rw [hmm]
        exact this
      · have := sum_sq_div_le_ncols l hl
        have hmm : (min (nrows l) (ncols l) : ℚ) = (ncols l : ℚ) :=
          min_eq_right (by exact_mod_cast h)
        rw [hmm]
        exact this
    calc ∑ a ∈ rowsF l, ∑ b ∈ colsF l, cellChi2 l a b
        ≤ _ := step1
      _ = _ := split2
      _ ≤ (l.length : ℚ) * (min (nrows l) (ncols l) : ℚ)
            - 2 * (l.length : ℚ) + (l.length : ℚ) := by linarith
      _ = (l.length : ℚ) * ((min (nrows l) (ncols l) : ℚ) - 1) := by ring

/-! ### Bounds on Cramér's V and Phi -/

lemma zip_ne_nil {x y : List ℕ} (hlen : x.length = y.length) (hne : x ≠ []) :
    x.zip y ≠ [] := by
  have h1 : 0 < x.length := List.length_pos.2 hne
  have : 0 < (x.zip y).length := by
    rw [List.length_zip, ← hlen, min_self]
    exact h1
  exact List.length_pos.1 this

lemma tableTotal_zip {x y : List ℕ} (hlen : x.length = y.length) :
    tableTotal (x.zip y) = x.length := by
  rw [tableTotal_eq_length, List.length_zip, ← hlen, min_self]

lemma minDim_nonneg {l : List (ℕ × ℕ)} (hl : l ≠ []) : 0 ≤ minDim l := by
  have hr : 1 ≤ nrows l := Finset.card_pos.2 (rowsF_nonempty hl)
  have hc : 1 ≤ ncols l := Finset.card_pos.2 (colsF_nonempty hl)
  rw [minDim]
  have h3 : 1 ≤ min (nrows l) (ncols l) := le_min hr hc
  omega

lemma cramers_v_nonneg (x y : List ℕ) : 0 ≤ cramers_v x y := by
  rw [cramers_v]
  split
  · exact le_refl 0
  · exact Real.sqrt_nonneg _

lemma phi_coefficient_nonneg (x y : List ℕ) : 0 ≤ phi_coefficient x y :=
  Real.sqrt_nonneg _

lemma cramers_v_le_one {x y : List ℕ} (hlen : x.length = y.length) (hne : x ≠ []) :
    cramers_v x y ≤ 1 := by
  have hl : x.zip y ≠ [] := zip_ne_nil hlen hne
  rw [cramers_v]
  split
  · exact zero_le_one
  · rename_i hmd
    have hN := length_pos_q hl
    have hmd1 : (1 : ℤ) ≤ minDim (x.zip y) := by
      have := minDim_nonneg hl
      omega
    have hmdq : (1 : ℚ) ≤ (minDim (x.zip y) : ℚ) := by exact_mod_cast hmd1
    have harg : (chi2_stat (x.zip y) /
        ((tableTotal (x.zip y) : ℚ) * (minDim (x.zip y) : ℚ)) : ℚ) ≤ 1 := by
      rw [div_le_one (by rw [tableTotal_eq_length]; positivity)]
      have hbound := chi2_stat_le (x.zip y) hl
      have hcast : ((tableTotal (x.zip y) : ℚ) * (minDim (x.zip y) : ℚ)) =
          ((x.zip y).length : ℚ) * ((min (nrows (x.zip y)) (ncols (x.zip y)) : ℚ) - 1) := by
        rw [tableTotal_eq_length, minDim]
        push_cast
        ring
      rw [hcast]
      exact hbound
    calc Real.sqrt _ ≤ Real.sqrt 1 := Real.sqrt_le_sqrt (by exact_mod_cast harg)
      _ = 1 := Real.sqrt_one

lemma phi_coefficient_le_one {x y : List ℕ} (hlen : x.length = y.length) (hne : x ≠ [])
    (hdim : min (nrows (x.zip y)) (ncols (x.zip y)) ≤ 2) :
    phi_coefficient x y ≤ 1 := by
  have hl : x.zip y ≠ [] := zip_ne_nil hlen hne
  have hN := length_pos_q hl
  rw [phi_coefficient]
  have harg : (chi2_stat (x.zip y) / (tableTotal (x.zip y) : ℚ) : ℚ) ≤ 1 := by
    rw [div_le_one (by rw [tableTotal_eq_length]; exact hN)]
    have hbound := chi2_stat_le (x.zip y) hl
    have hminq : ((min (nrows (x.zip y)) (ncols (x.zip y)) : ℚ) - 1) ≤ 1 := by
      have : (min (nrows (x.zip y)) (ncols (x.zip y)) : ℚ) ≤ 2 := by exact_mod_cast hdim
      linarith
    rw [tableTotal_eq_length]
    nlinarith
  calc Real.sqrt _ ≤ Real.sqrt 1 := Real.sqrt_le_sqrt (by exact_mod_cast harg)
    _ = 1 := Real.sqrt_one

/-! ### Symmetry of the statistics in their two arguments -/

lemma map_fst_map_swap (l : List (ℕ × ℕ)) :
    (l.map Prod.swap).map Prod.fst = l.map Prod.snd := by
  rw [List.map_map]
  rfl

lemma map_snd_map_swap (l : List (ℕ × ℕ)) :
    (l.map Prod.swap).map Prod.snd = l.map Prod.fst := by
  rw [List.map_map]
  rfl

lemma rowsF_swap (l : List (ℕ × ℕ)) : rowsF (l.map Prod.swap) = colsF l := by
  rw [rowsF, colsF, map_fst_map_swap]

lemma colsF_swap (l : List (ℕ × ℕ)) : colsF (l.map Prod.swap) = rowsF l := by
  rw [rowsF, colsF, map_snd_map_swap]

lemma obs_swap (l : List (ℕ × ℕ)) (a b : ℕ) : obs (l.map Prod.swap) b a = obs l a b := by
  induction l with
  | nil => rfl
  | cons p t ih =>
      obtain ⟨p1, p2⟩ := p
      simp only [obs, List.map_cons, Prod.swap_prod_mk, List.count_cons, beq_iff_eq,
        Prod.mk.injEq] at *
      rw [ih]
      congr 1
      by_cases h1 : p1 = a <;> by_cases h2 : p2 = b <;> simp [h1, h2]

lemma rowMarg_swap (l : List (ℕ × ℕ)) (b : ℕ) :
    rowMarg (l.map Prod.swap) b = colMarg l b := by
  rw [rowMarg, colMarg, map_fst_map_swap]

lemma colMarg_swap (l : List (ℕ × ℕ)) (a : ℕ) :
    colMarg (l.map Prod.swap) a = rowMarg l a := by
  rw [rowMarg, colMarg, map_snd_map_swap]

lemma tableTotal_swap (l : List (ℕ × ℕ)) : tableTotal (l.map Prod.swap) = tableTotal l := by
  rw [tableTotal_eq_length, tableTotal_eq_length, List.length_map]

lemma dof_swap (l : List (ℕ × ℕ)) : dof (l.map Prod.swap) = dof l := by
  rw [dof, dof, nrows, ncols, nrows, ncols, rowsF_swap, colsF_swap, Nat.mul_comm]

lemma expectedFreq_swap (l : List (ℕ × ℕ)) (a b : ℕ) :
    expectedFreq (l.map Prod.swap) b a = expectedFreq l a b := by
  rw [expectedFreq, expectedFreq, rowMarg_swap, colMarg_swap, tableTotal_swap, mul_comm]

lemma cellChi2_swap (l : List (ℕ × ℕ)) (a b : ℕ) :
    cellChi2 (l.map Prod.swap) b a = cellChi2 l a b := by
  rw [cellChi2, cellChi2, obs_swap, expectedFreq_swap, dof_swap]

lemma chi2_stat_swap (l : List (ℕ × ℕ)) : chi2_stat (l.map Prod.swap) = chi2_stat l := by
  rw [chi2_stat, chi2_stat, dof_swap]
  split
  · rfl
  · rw [rowsF_swap, colsF_swap, Finset.sum_comm]
    exact Finset.sum_congr rfl fun a _ => Finset.sum_congr rfl fun b _ => cellChi2_swap l a b

lemma minDim_swap (l : List (ℕ × ℕ)) : minDim (l.map Prod.swap) = minDim l := by
  rw [minDim, minDim, nrows, ncols, nrows, ncols, rowsF_swap, colsF_swap, min_comm]

/-- Cramér's V is symmetric in its two series arguments. -/
lemma cramers_v_symm (x y : List ℕ) : cramers_v x y = cramers_v y x := by
  rw [cramers_v, cramers_v, ← List.zip_swap x y, minDim_swap, chi2_stat_swap, tableTotal_swap]

/-- The Phi coefficient is symmetric in its two series arguments. -/
lemma phi_coefficient_symm (x y : List ℕ) : phi_coefficient x y = phi_coefficient y x := by
  rw [phi_coefficient, phi_coefficient, ← List.zip_swap x y, chi2_stat_swap, tableTotal_swap]

/-! ### Concrete evaluations of the chi-squared statistic -/

/-- The 3×3 identity table of the perfectly associated pair `[0,1,2]`,`[0,1,2]`
has chi-squared statistic 6 (no Yates correction: dof = 4). -/
lemma chi2_stat_perfect3 : chi2_stat (([0, 1, 2] : List ℕ).zip [0, 1, 2]) = 6 := by
  norm_num [chi2_stat, dof, nrows, ncols, rowsF, colsF, cellChi2, expectedFreq, obs,
    rowMarg, colMarg, tableTotal, yatesAdj, List.count_cons, Finset.sum_insert,
    List.zip, List.zipWith, -Prod.mk_one_one, -Prod.mk_zero_zero, Prod.mk.injEq]

/-- The 2×2 table of the pair `[0,0,1]`,`[0,0,1]` has Yates-corrected
chi-squared statistic 3/16. -/
lemma chi2_stat_small2 : chi2_stat (([0, 0, 1] : List ℕ).zip [0, 0, 1]) = 3 / 16 := by
  norm_num [chi2_stat, dof, nrows, ncols, rowsF, colsF, cellChi2, expectedFreq, obs,
    rowMarg, colMarg, tableTotal, yatesAdj, List.count_cons, Finset.sum_insert,
    List.zip, List.zipWith, -Prod.mk_one_one, -Prod.mk_zero_zero, Prod.mk.injEq,
    min_def, abs]

/-! ### Claim theorems about the association statistics -/

/-- Claim C1: For every pair of equal-length categorical series `x`, `y`,
`cramers_v x y` returns 0 when `min_dim = min(rows, cols) - 1` is 0, and
otherwise returns `sqrt(chi2 / (N * min_dim))`, where `chi2` is the
chi-squared statistic of the contingency table of `x` and `y` (as
`chi2_contingency` computes it) and `N` is the total count. -/
theorem cramers_v_formula (x y : List ℕ) (hlen : x.length = y.length) :
    (minDim (x.zip y) = 0 → cramers_v x y = 0) ∧
    (minDim (x.zip y) ≠ 0 → cramers_v x y =
      Real.sqrt ((chi2_stat (x.zip y) /
        ((x.length : ℚ) * (minDim (x.zip y) : ℚ)) : ℚ) : ℝ)) := by
  constructor
  · intro h
    simp only [cramers_v]
    rw [if_pos h]
  · intro h
    simp only [cramers_v]
    rw [if_neg h, tableTotal_zip hlen]

/-- Witness for `cramers_v_formula` at the concrete pair `[0,1]`, `[0,1]`. -/
theorem cramers_v_formula_witness :
    (minDim (([0, 1] : List ℕ).zip [0, 1]) = 0 → cramers_v [0, 1] [0, 1] = 0) ∧
    (minDim (([0, 1] : List ℕ).zip [0, 1]) ≠ 0 → cramers_v [0, 1] [0, 1] =
      Real.sqrt ((chi2_stat (([0, 1] : List ℕ).zip [0, 1]) /
        ((([0, 1] : List ℕ).length : ℚ) * (minDim (([0, 1] : List ℕ).zip [0, 1]) : ℚ)) : ℚ) : ℝ)) :=
  cramers_v_formula [0, 1] [0, 1] rfl

/-- Claim C2, counterexample: The claim says `phi_coefficient` always lies in
[0, 1]; on the perfectly associated 3-category pair `[0,1,2]`, `[0,1,2]` the
code returns `sqrt(6/3) = sqrt 2 > 1`. -/
theorem phi_coefficient_gt_one : 1 < phi_coefficient [0, 1, 2] [0, 1, 2] := by
  have h3 : tableTotal (([0, 1, 2] : List ℕ).zip [0, 1, 2]) = 3 := by decide
  have harg : ((chi2_stat (([0, 1, 2] : List ℕ).zip [0, 1, 2]) /
      (tableTotal (([0, 1, 2] : List ℕ).zip [0, 1, 2]) : ℚ) : ℚ) : ℝ) = 2 := by
    rw [chi2_stat_perfect3, h3]
    norm_num
  simp only [phi_coefficient]
  rw [harg, Real.lt_sqrt (by norm_num : (0 : ℝ) ≤ 1)]
  norm_num

/-- Claim C2, amended: For every pair of equal-length nonempty categorical
series, `cramers_v` lies in [0, 1] and `phi_coefficient` is nonnegative; the
phi coefficient is moreover at most 1 whenever the contingency table has at
most 2 rows or at most 2 columns, but can exceed 1 on larger tables
(see `phi_coefficient_gt_one`). -/
theorem effect_size_ranges (x y : List ℕ) (hlen : x.length = y.length) (hne : x ≠ []) :
    (0 ≤ cramers_v x y ∧ cramers_v x y ≤ 1) ∧
    0 ≤ phi_coefficient x y ∧
    (min (nrows (x.zip y)) (ncols (x.zip y)) ≤ 2 → phi_coefficient x y ≤ 1) :=
  ⟨⟨cramers_v_nonneg x y, cramers_v_le_one hlen hne⟩,
    phi_coefficient_nonneg x y, fun hdim => phi_coefficient_le_one hlen hne hdim⟩

/-- Witness for `effect_size_ranges` at the concrete pair `[0,1]`, `[0,1]`. -/
theorem effect_size_ranges_witness :
    (0 ≤ cramers_v [0, 1] [0, 1] ∧ cramers_v [0, 1] [0, 1] ≤ 1) ∧
    0 ≤ phi_coefficient [0, 1] [0, 1] ∧
    (min (nrows (([0, 1] : List ℕ).zip [0, 1])) (ncols (([0, 1] : List ℕ).zip [0, 1])) ≤ 2 →
      phi_coefficient [0, 1] [0, 1] ≤ 1) :=
  effect_size_ranges [0, 1] [0, 1] rfl (by decide)

/-- Claim C5: When either input series has a single distinct value, both
`cramers_v` and `phi_coefficient` return exactly 0, and every expected cell
frequency of the contingency table is positive — so the only error
condition of `chi2_contingency` (a zero expected frequency) cannot fire and
no error reaches the caller. -/
theorem degenerate_input_zero (x y : List ℕ) (hlen : x.length = y.length) (hne : x ≠ [])
    (hdeg : x.toFinset.card = 1 ∨ y.toFinset.card = 1) :
    cramers_v x y = 0 ∧ phi_coefficient x y = 0 ∧
    ∀ a ∈ rowsF (x.zip y), ∀ b ∈ colsF (x.zip y), 0 < expectedFreq (x.zip y) a b := by
  have hl : x.zip y ≠ [] := zip_ne_nil hlen hne
  have hrows : rowsF (x.zip y) = x.toFinset := by
    rw [rowsF, List.map_fst_zip x y hlen.le]
  have hcols : colsF (x.zip y) = y.toFinset := by
    rw [colsF, List.map_snd_zip x y hlen.ge]
  have hdim : nrows (x.zip y) = 1 ∨ ncols (x.zip y) = 1 := by
    rcases hdeg with h | h
    · exact Or.inl (by rw [nrows, hrows]; exact h)
    · exact Or.inr (by rw [ncols, hcols]; exact h)
  have hr1 : 1 ≤ nrows (x.zip y) := Finset.card_pos.2 (rowsF_nonempty hl)
  have hc1 : 1 ≤ ncols (x.zip y) := Finset.card_pos.2 (colsF_nonempty hl)
  have hdof : dof (x.zip y) = 0 := by
    rw [dof]
    rcases hdim with h | h <;> simp [h]
  have hchi : chi2_stat (x.zip y) = 0 := by rw [chi2_stat, if_pos hdof]
  refine ⟨?_, ?_, fun a ha b hb => expectedFreq_pos hl ha hb⟩
  · have hmin : min (nrows (x.zip y)) (ncols (x.zip y)) = 1 := by
      rcases hdim with h | h
      · rw [h]
        exact min_eq_left hc1
      · rw [h]
        exact min_eq_right hr1
    have hmd : minDim (x.zip y) = 0 := by
      rw [minDim, hmin]
      rfl
    simp only [cramers_v]
    rw [if_pos hmd]
  · simp only [phi_coefficient]
    rw [hchi]
    simp

/-- Witness for `degenerate_input_zero`: the first series `[5,5]` is constant. -/
theorem degenerate_input_zero_witness :
    cramers_v [5, 5] [0, 1] = 0 ∧ phi_coefficient [5, 5] [0, 1] = 0 ∧
    ∀ a ∈ rowsF (([5, 5] : List ℕ).zip [0, 1]), ∀ b ∈ colsF (([5, 5] : List ℕ).zip [0, 1]),
      0 < expectedFreq (([5, 5] : List ℕ).zip [0, 1]) a b :=
  degenerate_input_zero [5, 5] [0, 1] rfl (by decide) (Or.inl (by decide))

/-! ### The matrix builder -/

/-- Function `build_effect_size_matrix(df, variables, effect_func)` from
`generate_cachai_effect_sizes.py`: the `variables.length × variables.length`
matrix whose `(i, j)` entry is `1.0` when the index `i` equals `j` and
`effect_func(df[variables[i]], df[variables[j]])` otherwise.  `df` maps a
variable name to its column.  Squareness of dimension `len(variables)` is
carried by the index type `Fin variables.length`. -/
def build_effect_size_matrix {V : Type} (df : V → List ℕ) (vs : List V)
    (effect : List ℕ → List ℕ → ℝ) (i j : Fin vs.length) : ℝ :=
  if (i : ℕ) = (j : ℕ) then 1 else effect (df (vs.get i)) (df (vs.get j))

/-- Claim C6: The matrix built by `build_effect_size_matrix` is square of
dimension `len(variables)` (its index type), has `M[i][i] = 1.0`
unconditionally, and is symmetric whenever the statistic function is
symmetric in its arguments — which Cramér's V and the Phi coefficient are. -/
theorem build_matrix_diag_symm {V : Type} (df : V → List ℕ) (vs : List V)
    (effect : List ℕ → List ℕ → ℝ) :
    (∀ i, build_effect_size_matrix df vs effect i i = 1) ∧
    ((∀ u v : List ℕ, effect u v = effect v u) →
      ∀ i j, build_effect_size_matrix df vs effect i j =
        build_effect_size_matrix df vs effect j i) ∧
    (∀ u v : List ℕ, cramers_v u v = cramers_v v u) ∧
    (∀ u v : List ℕ, phi_coefficient u v = phi_coefficient v u) := by
  refine ⟨fun i => by rw [build_effect_size_matrix, if_pos rfl], ?_,
    cramers_v_symm, phi_coefficient_symm⟩
  intro hsymm i j
  rw [build_effect_size_matrix, build_effect_size_matrix]
  by_cases h : (i : ℕ) = (j : ℕ)
  · rw [if_pos h, if_pos h.symm]
  · rw [if_neg h, if_neg (Ne.symm h)]
    exact hsymm _ _

/-- Witness for `build_matrix_diag_symm` on a concrete 2-variable frame with
Cramér's V as the statistic. -/
theorem build_matrix_diag_symm_witness :
    build_effect_size_matrix (fun v => [v]) ([0, 1] : List ℕ) cramers_v
        ⟨0, by norm_num⟩ ⟨0, by norm_num⟩ = 1 ∧
    build_effect_size_matrix (fun v => [v]) ([0, 1] : List ℕ) cramers_v
        ⟨0, by norm_num⟩ ⟨1, by norm_num⟩ =
      build_effect_size_matrix (fun v => [v]) ([0, 1] : List ℕ) cramers_v
        ⟨1, by norm_num⟩ ⟨0, by norm_num⟩ :=
  ⟨(build_matrix_diag_symm (fun v => [v]) ([0, 1] : List ℕ) cramers_v).1 _,
    (build_matrix_diag_symm (fun v => [v]) ([0, 1] : List ℕ) cramers_v).2.1
      (build_matrix_diag_symm (fun v => [v]) ([0, 1] : List ℕ) cramers_v).2.2.1 _ _⟩

/-! ### Chord-diagram layout

`generate_fixed_visualizations.main` draws a chord between variables `i < j`
of a square correlation matrix exactly when `abs(corr_matrix.iloc[i, j])`
exceeds the threshold.  `create_matplotlib_chord` in
`generate_comprehensive_visualizations.py` draws a chord between row
category `i` and column category `j` of a contingency table exactly when the
max-normalised cell value exceeds the threshold, and sizes the nodes by the
row/column marginal sums of the *unfiltered* table, normalised by the
largest marginal and scaled by the constant factor 0.3. -/

/-- Chord set of the correlation chord diagram in
`generate_fixed_visualizations.main`: unordered pairs `i < j` whose absolute
matrix entry strictly exceeds the threshold. -/
def chordsCorr (M : ℕ → ℕ → ℚ) (nv : ℕ) (threshold : ℚ) : Finset (ℕ × ℕ) :=
  (Finset.range nv ×ˢ Finset.range nv).filter fun p =>
    p.1 < p.2 ∧ threshold < |M p.1 p.2|

/-- Largest element of a list, as Python's `max` on a nonempty list
(`max(node_sizes)` / `data.max().max()`); 0 on the empty list, which the
scripts never pass. -/
def listMax : List ℚ → ℚ
  | [] => 0
  | [a] => a
  | a :: b :: r => max a (listMax (b :: r))

/-- The value `data.max().max()`: largest cell of the `r × c` table `T`. -/
def dataMax (T : ℕ → ℕ → ℚ) (r c : ℕ) : ℚ :=
  listMax ((List.range r).flatMap fun i => (List.range c).map fun j => T i j)

/-- The table `data_norm`: the table normalised by its largest cell when that is
positive, the raw table otherwise. -/
def dataNorm (T : ℕ → ℕ → ℚ) (r c : ℕ) (i j : ℕ) : ℚ :=
  if 0 < dataMax T r c then T i j / dataMax T r c else T i j

/-- Chord set of `create_matplotlib_chord`: pairs of a row category `i` and a
column category `j` whose normalised value strictly exceeds the threshold. -/
def chordsMpl (T : ℕ → ℕ → ℚ) (r c : ℕ) (threshold : ℚ) : Finset (ℕ × ℕ) :=
  (Finset.range r ×ˢ Finset.range c).filter fun p =>
    threshold < dataNorm T r c p.1 p.2

/-- The list `node_sizes` of `create_matplotlib_chord`: node `i < r` gets the `i`-th
row sum of the table, node `r ≤ i < r + c` the `(i - r)`-th column sum.
Thresholding plays no part: every cell of the row/column is counted. -/
def nodeSize (T : ℕ → ℕ → ℚ) (r c : ℕ) (i : ℕ) : ℚ :=
  if i < r then ∑ j ∈ Finset.range c, T i j
  else ∑ a ∈ Finset.range r, T a (i - r)

/-- The value `max(node_sizes)` over the `r + c` nodes. -/
def maxNodeSize (T : ℕ → ℕ → ℚ) (r c : ℕ) : ℚ :=
  listMax ((List.range (r + c)).map (nodeSize T r c))

/-- The sizes `node_sizes_norm = np.array(node_sizes) / max(node_sizes) * 0.3`:
the visual size of node `i`. -/
def nodeSizeNorm (T : ℕ → ℕ → ℚ) (r c : ℕ) (i : ℕ) : ℚ :=
  nodeSize T r c i / maxNodeSize T r c * (3 / 10)

/-- Label rotation of `improve_chord_labels` in
`generate_fixed_visualizations.py`.  The argument is
`np.arctan2(y, x) * 180 / np.pi`, which lies in (-180, 180]; the code sets
`rotation = angle - 180` when `90 < angle < 270` and `rotation = angle`
otherwise. -/
def labelRotationFixed (angleDeg : ℚ) : ℚ :=
  if 90 < angleDeg ∧ angleDeg < 270 then angleDeg - 180 else angleDeg

/-- Label rotation of `create_matplotlib_chord`: the node angle is
`2π i / n ∈ [0, 2π)`; in degrees the code sets `rotation = angle + 180` when
`angle > 180°` (i.e. `angle > np.pi` in radians) and `rotation = angle`
otherwise. -/
def labelRotationPolar (angleDeg : ℚ) : ℚ :=
  if 180 < angleDeg then angleDeg + 180 else angleDeg

/-- The concrete 3×3 association matrix of the C7 scenario:
`[[1, 0.05, 0.5], [0.05, 1, 0.2], [0.5, 0.2, 1]]`. -/
def exampleM : ℕ → ℕ → ℚ
  | 0, 0 => 1
  | 0, 1 => 1 / 20
  | 0, 2 => 1 / 2
  | 1, 0 => 1 / 20
  | 1, 1 => 1
  | 1, 2 => 1 / 5
  | 2, 0 => 1 / 2
  | 2, 1 => 1 / 5
  | 2, 2 => 1
  | _, _ => 0

/-- Concrete chord set of the C7 scenario. -/
lemma chordsCorr_example : chordsCorr exampleM 3 (1 / 10) = {(0, 2), (1, 2)} := by
  ext p
  obtain ⟨i, j⟩ := p
  simp only [chordsCorr, Finset.mem_filter, Finset.mem_product, Finset.mem_range,
    Finset.mem_insert, Finset.mem_singleton, Prod.mk.injEq]
  constructor
  · rintro ⟨⟨hi, hj⟩, hij, habs⟩
    interval_cases i <;> interval_cases j <;>
      norm_num [exampleM, abs, max_def] at habs hij ⊢
  · rintro (⟨rfl, rfl⟩ | ⟨rfl, rfl⟩) <;>
      refine ⟨⟨by norm_num, by norm_num⟩, by norm_num, ?_⟩ <;>
      norm_num [exampleM, abs, max_def]

/-- Claim C7: A cell whose absolute value is strictly below the threshold is
excluded from the chord set of either layout (not merely hidden), while the
node-size marginals still count every cell of the table; in the concrete
scenario (entities `[P, Q, R] = [0, 1, 2]`, threshold 0.1, matrix
`exampleM`) the chord set is exactly `{(P, R), (Q, R)}`, excluding
`(P, Q)`. -/
theorem threshold_excludes_chords :
    (∀ (M : ℕ → ℕ → ℚ) (nv : ℕ) (t : ℚ) (i j : ℕ),
      |M i j| < t → (i, j) ∉ chordsCorr M nv t) ∧
    (∀ (T : ℕ → ℕ → ℚ) (r c : ℕ) (t : ℚ) (i j : ℕ),
      |dataNorm T r c i j| < t → (i, j) ∉ chordsMpl T r c t) ∧
    (∀ (T : ℕ → ℕ → ℚ) (r c : ℕ) (i j : ℕ), i < r → j < c →
      nodeSize T r c i = T i j + ∑ k ∈ (Finset.range c).erase j, T i k) ∧
    chordsCorr exampleM 3 (1 / 10) = {(0, 2), (1, 2)} := by
  refine ⟨?_, ?_, ?_, chordsCorr_example⟩
  · intro M nv t i j h hmem
    rw [chordsCorr, Finset.mem_filter] at hmem
    have := hmem.2.2
    have habs : M i j ≤ |M i j| := le_abs_self _
    linarith
  · intro T r c t i j h hmem
    rw [chordsMpl, Finset.mem_filter] at hmem
    have := hmem.2
    have habs : dataNorm T r c i j ≤ |dataNorm T r c i j| := le_abs_self _
    linarith
  · intro T r c i j hi hj
    rw [nodeSize, if_pos hi]
    exact (Finset.add_sum_erase (Finset.range c) (T i) (Finset.mem_range.2 hj)).symm

/-- Witness for `threshold_excludes_chords`: the cell `(P, Q)` of the
concrete scenario has `|0.05| < 0.1` and indeed generates no chord. -/
theorem threshold_excludes_chords_witness :
    |exampleM 0 1| < 1 / 10 ∧ (0, 1) ∉ chordsCorr exampleM 3 (1 / 10) :=
  ⟨by norm_num [exampleM, abs, max_def],
    threshold_excludes_chords.1 exampleM 3 (1 / 10) 0 1
      (by norm_num [exampleM, abs, max_def])⟩

lemma le_listMax : ∀ (L : List ℚ), ∀ x ∈ L, x ≤ listMax L
  | [], x, hx => absurd hx (List.not_mem_nil x)
  | [a], x, hx => by
      rcases List.mem_singleton.1 hx with rfl
      exact le_refl _
  | a :: b :: r, x, hx => by
      rcases List.mem_cons.1 hx with rfl | hx'
      · exact le_max_left _ _
      · exact le_trans (le_listMax (b :: r) x hx') (le_max_right _ _)

/-- Claim C8, counterexample: The claim says the node's visual size is the
marginal normalised by the maximum marginal, with the largest node at
relative size exactly 1.0; on the 1×1 table `[[1]]` the largest node's
computed visual size (`node_sizes_norm`) is `0.3`, not `1.0`, because the
code multiplies the normalised marginal by the constant 0.3. -/
theorem node_size_not_one :
    nodeSizeNorm (fun _ _ => 1) 1 1 0 = 3 / 10 ∧
    nodeSize (fun _ _ => 1) 1 1 0 / maxNodeSize (fun _ _ => 1) 1 1 = 1 ∧
    nodeSizeNorm (fun _ _ => 1) 1 1 0 ≠ 1 := by
  have hr2 : List.range 2 = [0, 1] := rfl
  refine ⟨?_, ?_, ?_⟩ <;>
    norm_num [nodeSizeNorm, nodeSize, maxNodeSize, hr2, listMax, Finset.sum_range_one]

/-- Claim C8, amended: Each node's visual size is the marginal divided by the
maximum marginal and scaled by the constant 0.3; hence any node whose
marginal attains the maximum has visual size exactly 0.3, no node exceeds
0.3, and the size of a node *relative to the largest node* equals its
marginal normalised by the maximum marginal (so the largest node has
relative size 1.0). -/
theorem node_size_normalization (T : ℕ → ℕ → ℚ) (r c : ℕ) (i i₀ : ℕ)
    (hmax : 0 < maxNodeSize T r c) (h₀ : nodeSize T r c i₀ = maxNodeSize T r c) :
    nodeSizeNorm T r c i = nodeSize T r c i / maxNodeSize T r c * (3 / 10) ∧
    nodeSizeNorm T r c i₀ = 3 / 10 ∧
    (i < r + c → nodeSizeNorm T r c i ≤ 3 / 10) ∧
    nodeSizeNorm T r c i / nodeSizeNorm T r c i₀ =
      nodeSize T r c i / maxNodeSize T r c := by
  have h1 : nodeSizeNorm T r c i₀ = 3 / 10 := by
    rw [nodeSizeNorm, h₀, div_self hmax.ne', one_mul]
  refine ⟨rfl, h1, ?_, ?_⟩
  · intro hi
    have hle : nodeSize T r c i ≤ maxNodeSize T r c := by
      apply le_listMax
      exact List.mem_map.2 ⟨i, List.mem_range.2 hi, rfl⟩
    have hdiv : nodeSize T r c i / maxNodeSize T r c ≤ 1 := (div_le_one hmax).2 hle
    rw [nodeSizeNorm]
    nlinarith
  · rw [h1, nodeSizeNorm]
    rw [mul_div_assoc]
    norm_num

/-- Witness for `node_size_normalization` on the 1×1 table `[[1]]`. -/
theorem node_size_normalization_witness :
    ((0 : ℚ) < maxNodeSize (fun _ _ => 1) 1 1 ∧
      nodeSize (fun _ _ => 1) 1 1 0 = maxNodeSize (fun _ _ => 1) 1 1) ∧
    (nodeSizeNorm (fun _ _ => 1) 1 1 0 =
        nodeSize (fun _ _ => 1) 1 1 0 / maxNodeSize (fun _ _ => 1) 1 1 * (3 / 10) ∧
      nodeSizeNorm (fun _ _ => 1) 1 1 0 = 3 / 10 ∧
      (0 < 1 + 1 → nodeSizeNorm (fun _ _ => 1) 1 1 0 ≤ 3 / 10) ∧
      nodeSizeNorm (fun _ _ => 1) 1 1 0 / nodeSizeNorm (fun _ _ => 1) 1 1 0 =
        nodeSize (fun _ _ => 1) 1 1 0 / maxNodeSize (fun _ _ => 1) 1 1) := by
  have hr2 : List.range 2 = [0, 1] := rfl
  have hmax : (0 : ℚ) < maxNodeSize (fun _ _ => 1) 1 1 := by
    norm_num [maxNodeSize, nodeSize, hr2, listMax, Finset.sum_range_one]
  have h₀ : nodeSize (fun _ _ => 1) 1 1 0 = maxNodeSize (fun _ _ => 1) 1 1 := by
    norm_num [maxNodeSize, nodeSize, hr2, listMax, Finset.sum_range_one]
  exact ⟨⟨hmax, h₀⟩, node_size_normalization (fun _ _ => 1) 1 1 0 0 hmax h₀⟩

/-- In `improve_chord_labels` the conjunct `angle < 270` is vacuously true,
because `np.arctan2` output converted to degrees never exceeds 180: the
intended flip range (90°, 270°) was applied to the wrong angle convention. -/
lemma labelRotationFixed_cond_vacuous (a : ℚ) (h2 : a ≤ 180) :
    (90 < a ∧ a < 270) ↔ 90 < a :=
  ⟨fun h => h.1, fun h => ⟨h, by linarith⟩⟩

/-- Claim C9, code bug: The spec says a label is rotated an extra 180° exactly
when its node angle lies in (90°, 270°).  `improve_chord_labels` receives
the angle as `arctan2` output in (-180°, 180°], so a node at 200° appears as
-160° and is left unrotated (and the code's own dead conjunct
`angle < 270` shows (90°, 270°) was the intent); `create_matplotlib_chord`
flips only angles above 180°, so a node at 100° is left unrotated.  In both
sources those labels render upside down, contradicting the claim. -/
theorem label_rotation_divergence :
    (labelRotationFixed (-160) = -160 ∧
      (-160 : ℚ) + 360 = 200 ∧ (90 : ℚ) < 200 ∧ (200 : ℚ) < 270) ∧
    (labelRotationPolar 100 = 100 ∧ (90 : ℚ) < 100 ∧ (100 : ℚ) < 270) ∧
    labelRotationFixed 100 = -80 ∧ labelRotationPolar 200 = 380 := by
  norm_num [labelRotationFixed, labelRotationPolar]

/-! ### np.percentile with linear interpolation -/

/-- Element of a list at a known-good position, via `getD`. -/
lemma getD_of_lt {α : Type} (d : α) (s : List α) (i : ℕ) (h : i < s.length) :
    s.getD i d = s.get ⟨i, h⟩ := by
  rw [List.getD_eq_getElem?_getD, List.getElem?_eq_getElem h, Option.getD_some,
    List.get_eq_getElem]

/-- Linear interpolation of a sorted sample at virtual index `h`:
`s[floor h] + (h - floor h) * (s[ceil h] - s[floor h])`. -/
noncomputable def interpAt (s : List ℝ) (h : ℚ) : ℝ :=
  s.getD (⌊h⌋).toNat 0 +
    ((h - ⌊h⌋ : ℚ) : ℝ) * (s.getD (⌈h⌉).toNat 0 - s.getD (⌊h⌋).toNat 0)

/-- Function `np.percentile(l, q)` with the default linear interpolation: sort the
sample and interpolate at virtual index `q / 100 * (n - 1)`. -/
noncomputable def percentile (q : ℚ) (l : List ℝ) : ℝ :=
  interpAt (l.insertionSort (· ≤ ·)) (q / 100 * ((l.length : ℚ) - 1))

lemma percentile_indices {n : ℕ} {h : ℚ} (h0 : 0 ≤ h) (hn : h ≤ (n : ℚ) - 1) :
    (⌊h⌋).toNat ≤ (⌈h⌉).toNat ∧ (⌈h⌉).toNat < n := by
  have hfl : (0 : ℤ) ≤ ⌊h⌋ := Int.floor_nonneg.2 h0
  have hfc : ⌊h⌋ ≤ ⌈h⌉ := Int.floor_le_ceil h
  have hcl : ⌈h⌉ ≤ (n : ℤ) - 1 := by
    rw [Int.ceil_le]
    push_cast
    exact hn
  omega

lemma sorted_getD_mono {s : List ℝ} (hs : List.Sorted (· ≤ ·) s) {i j : ℕ}
    (hij : i ≤ j) (hj : j < s.length) : s.getD i 0 ≤ s.getD j 0 := by
  have hi : i < s.length := lt_of_le_of_lt hij hj
  rw [getD_of_lt _ _ _ hi, getD_of_lt _ _ _ hj]
  exact hs.rel_get_of_le hij

/-- The interpolated value lies between the two bracketing sorted samples. -/
lemma interpAt_between {s : List ℝ} (hs : List.Sorted (· ≤ ·) s) {h : ℚ}
    (h0 : 0 ≤ h) (hn : h ≤ (s.length : ℚ) - 1) :
    s.getD (⌊h⌋).toNat 0 ≤ interpAt s h ∧ interpAt s h ≤ s.getD (⌈h⌉).toNat 0 := by
  obtain ⟨hfc, hcn⟩ := percentile_indices h0 hn
  have hsc : s.getD (⌊h⌋).toNat 0 ≤ s.getD (⌈h⌉).toNat 0 := sorted_getD_mono hs hfc hcn
  have hg0q : (0 : ℚ) ≤ h - ⌊h⌋ := by
    have := Int.floor_le h
    linarith
  have hg1q : (h - ⌊h⌋ : ℚ) ≤ 1 := by
    have := Int.lt_floor_add_one h
    push_cast at *
    linarith
  have hg0 : (0 : ℝ) ≤ ((h - ⌊h⌋ : ℚ) : ℝ) := by exact_mod_cast hg0q
  have hg1 : ((h - ⌊h⌋ : ℚ) : ℝ) ≤ 1 := by exact_mod_cast hg1q
  rw [interpAt]
  constructor
  · nlinarith
  · nlinarith

/-- Monotonicity of linear interpolation over a sorted sample. -/
lemma interpAt_mono {s : List ℝ} (hs : List.Sorted (· ≤ ·) s) {h₁ h₂ : ℚ}
    (h0 : 0 ≤ h₁) (h12 : h₁ ≤ h₂) (hn : h₂ ≤ (s.length : ℚ) - 1) :
    interpAt s h₁ ≤ interpAt s h₂ := by
  by_cases hsame : ⌊h₁⌋ = ⌊h₂⌋ ∧ ⌈h₁⌉ = ⌈h₂⌉
  · obtain ⟨hf, hc⟩ := hsame
    obtain ⟨hfc2, hcn2⟩ := percentile_indices (le_trans h0 h12) hn
    have hsc : s.getD (⌊h₂⌋).toNat 0 ≤ s.getD (⌈h₂⌉).toNat 0 :=
      sorted_getD_mono hs hfc2 hcn2
    rw [interpAt, interpAt, hf, hc]
    have hgle : ((h₁ - ⌊h₂⌋ : ℚ) : ℝ) ≤ ((h₂ - ⌊h₂⌋ : ℚ) : ℝ) := by
      have : (h₁ - ⌊h₂⌋ : ℚ) ≤ (h₂ - ⌊h₂⌋ : ℚ) := by linarith
      exact_mod_cast this
    nlinarith
  · have hff : ⌊h₁⌋ ≤ ⌊h₂⌋ := Int.floor_mono h12
    have hcc : ⌈h₁⌉ ≤ ⌈h₂⌉ := Int.ceil_mono h12
    have hfc1 : ⌊h₁⌋ ≤ ⌈h₁⌉ := Int.floor_le_ceil h₁
    have hfc2 : ⌊h₂⌋ ≤ ⌈h₂⌉ := Int.floor_le_ceil h₂
    have hc1 : ⌈h₁⌉ ≤ ⌊h₁⌋ + 1 := Int.ceil_le_floor_add_one h₁
    have hc2 : ⌈h₂⌉ ≤ ⌊h₂⌋ + 1 := Int.ceil_le_floor_add_one h₂
    have hkey : ⌈h₁⌉ ≤ ⌊h₂⌋ := by omega
    have hb1 := interpAt_between hs h0 (le_trans h12 hn)
    have hb2 := interpAt_between hs (le_trans h0 h12) hn
    obtain ⟨_, hcn2⟩ := percentile_indices (le_trans h0 h12) hn
    obtain ⟨hfc1n, hcn1⟩ := percentile_indices h0 (le_trans h12 hn)
    have hfl1 : (0 : ℤ) ≤ ⌊h₁⌋ := Int.floor_nonneg.2 h0
    have hmid : s.getD (⌈h₁⌉).toNat 0 ≤ s.getD (⌊h₂⌋).toNat 0 := by
      apply sorted_getD_mono hs (by omega)
      have := percentile_indices (le_trans h0 h12) hn
      omega
    exact le_trans hb1.2 (le_trans hmid (le_trans (le_refl _) hb2.1))

/-- Function `np.percentile` is monotone in the requested percentile. -/
lemma percentile_mono {l : List ℝ} (hl : l ≠ []) {q₁ q₂ : ℚ}
    (h0 : 0 ≤ q₁) (h12 : q₁ ≤ q₂) (h100 : q₂ ≤ 100) :
    percentile q₁ l ≤ percentile q₂ l := by
  have hsorted : List.Sorted (· ≤ ·) (l.insertionSort (· ≤ ·)) :=
    List.sorted_insertionSort _ l
  have hslen : (l.insertionSort (· ≤ ·)).length = l.length :=
    List.length_insertionSort _ l
  have hlen1 : 1 ≤ l.length := List.length_pos.2 hl
  have hlq : (1 : ℚ) ≤ (l.length : ℚ) := by exact_mod_cast hlen1
  rw [percentile, percentile]
  apply interpAt_mono hsorted
  · have : (0 : ℚ) ≤ (l.length : ℚ) - 1 := by linarith
    positivity
  · apply mul_le_mul_of_nonneg_right _ (by linarith)
    exact div_le_div_of_nonneg_right h12 (by norm_num)
  · rw [hslen]
    have hq2 : q₂ / 100 ≤ 1 := by linarith
    have hbase : (0 : ℚ) ≤ (l.length : ℚ) - 1 := by linarith
    nlinarith

lemma insertionSort_replicate (n : ℕ) (c : ℝ) :
    List.insertionSort (· ≤ ·) (List.replicate n c) = List.replicate n c := by
  rw [List.eq_replicate_iff]
  refine ⟨by rw [List.length_insertionSort, List.length_replicate], fun b hb => ?_⟩
  have := List.mem_insertionSort ((· ≤ ·) : ℝ → ℝ → Prop) |>.1 hb
  exact List.eq_of_mem_replicate this

/-- A percentile of a constant sample is that constant. -/
lemma percentile_replicate {n : ℕ} (hn : 1 ≤ n) {q : ℚ} (h0 : 0 ≤ q) (h100 : q ≤ 100)
    (c : ℝ) : percentile q (List.replicate n c) = c := by
  rw [percentile, insertionSort_replicate, List.length_replicate]
  have hnq : (1 : ℚ) ≤ (n : ℚ) := by exact_mod_cast hn
  have h0' : 0 ≤ q / 100 * ((n : ℚ) - 1) :=
    mul_nonneg (by positivity) (by linarith)
  have hn' : q / 100 * ((n : ℚ) - 1) ≤ (n : ℚ) - 1 := by nlinarith
  obtain ⟨hfc, hcn⟩ :=
    @percentile_indices n (q / 100 * ((n : ℚ) - 1)) h0' hn'
  have hfn : (⌊q / 100 * ((n : ℚ) - 1)⌋).toNat < n := lt_of_le_of_lt hfc hcn
  rw [interpAt, getD_of_lt _ _ _ (by rw [List.length_replicate]; exact hfn),
    getD_of_lt _ _ _ (by rw [List.length_replicate]; exact hcn)]
  simp only [List.get_eq_getElem, List.getElem_replicate]
  ring

/-! ### The bootstrap confidence interval -/

/-- Selection `x.iloc[indices].values`: positional selection of a series by an index
list (`indices` is what `np.random.choice(len(x), size=len(x))` returned). -/
def resample (s : List ℕ) (idx : List ℕ) : List ℕ := idx.map fun i => s.getD i 0

/-- One bootstrap replicate of `cramers_v_with_ci`: cross-tabulate the
resampled pair, recompute the chi-squared statistic, and form
`sqrt(chi2_boot / (len(x) * min_dim))` — with the *original* `min_dim` and
`len(x)` — or 0 when `min_dim` is not positive. -/
noncomputable def bootValue (x y : List ℕ) (md : ℤ) (idx : List ℕ) : ℝ :=
  if 0 < md then
    Real.sqrt ((chi2_stat ((resample x idx).zip (resample y idx)) /
      ((x.length : ℚ) * (md : ℚ)) : ℚ) : ℝ)
  else 0

/-- Function `cramers_v_with_ci(x, y, confidence)` from
`generate_comprehensive_visualizations.py`.  The 1000 index draws of
`np.random.choice(len(x), size=len(x), replace=True)` under the fixed seed
42 are abstracted as the stream `draws` (`draws k` is the index list used by
iteration `k`).  Returns `(point, (ci_lower, ci_upper))`: the degenerate
`(0, (0, 0))` when `min_dim == 0`, else the point estimate together with the
`alpha*100` and `(1-alpha)*100` percentiles of the bootstrap distribution,
where `alpha = (1 - confidence) / 2`. -/
noncomputable def cramers_v_with_ci (x y : List ℕ) (confidence : ℚ)
    (draws : ℕ → List ℕ) : ℝ × ℝ × ℝ :=
  let l := x.zip y
  if minDim l = 0 then (0, 0, 0)
  else
    let v := Real.sqrt ((chi2_stat l / ((tableTotal l : ℚ) * (minDim l : ℚ)) : ℚ) : ℝ)
    let vboot := (List.range 1000).map fun k => bootValue x y (minDim l) (draws k)
    let alpha := (1 - confidence) / 2
    (v, percentile (alpha * 100) vboot, percentile ((1 - alpha) * 100) vboot)

/-- First component of `cramers_v_with_ci` in the non-degenerate branch. -/
lemma cramers_v_with_ci_fst (x y : List ℕ) (confidence : ℚ) (draws : ℕ → List ℕ)
    (hmd : minDim (x.zip y) ≠ 0) :
    (cramers_v_with_ci x y confidence draws).1 =
      Real.sqrt ((chi2_stat (x.zip y) /
        ((tableTotal (x.zip y) : ℚ) * (minDim (x.zip y) : ℚ)) : ℚ) : ℝ) := by
  simp only [cramers_v_with_ci]
  rw [if_neg hmd]

/-- Upper bound returned by `cramers_v_with_ci` in the non-degenerate branch. -/
lemma cramers_v_with_ci_upper (x y : List ℕ) (confidence : ℚ) (draws : ℕ → List ℕ)
    (hmd : minDim (x.zip y) ≠ 0) :
    (cramers_v_with_ci x y confidence draws).2.2 =
      percentile ((1 - (1 - confidence) / 2) * 100)
        ((List.range 1000).map fun k => bootValue x y (minDim (x.zip y)) (draws k)) := by
  simp only [cramers_v_with_ci]
  rw [if_neg hmd]

/-- Claim C10: When the contingency table has a single row or column
(`min_dim == 0`), `cramers_v_with_ci` returns the point estimate 0 with the
degenerate interval (0, 0) for *every* possible draw stream and confidence —
the early return precedes the bootstrap loop, so the random number
generator is never consulted. -/
theorem ci_degenerate (x y : List ℕ) (h : minDim (x.zip y) = 0) :
    ∀ (confidence : ℚ) (draws : ℕ → List ℕ),
      cramers_v_with_ci x y confidence draws = (0, 0, 0) := by
  intro confidence draws
  simp only [cramers_v_with_ci]
  rw [if_pos h]

/-- Witness for `ci_degenerate`: the constant series `[0, 0]` gives a 1×2
table. -/
theorem ci_degenerate_witness :
    minDim (([0, 0] : List ℕ).zip [0, 1]) = 0 ∧
    ∀ (confidence : ℚ) (draws : ℕ → List ℕ),
      cramers_v_with_ci [0, 0] [0, 1] confidence draws = (0, 0, 0) :=
  ⟨by decide, ci_degenerate [0, 0] [0, 1] (by decide)⟩

/-- Claim C4: In the non-degenerate branch, the bootstrap distribution has
exactly 1000 entries, each obtained by applying one drawn index list to
*both* series (the resampled pair list is the index-selection of the
original pair list, so pairing is never desynchronized, and each resample
has size N), and the returned bounds are the `(alpha/2)`- and
`(1 - alpha/2)`-percentiles of that distribution where `alpha = 1 -
confidence`.  The draw stream is constrained exactly as
`np.random.choice(len(x), size=len(x), replace=True)` guarantees: `N`
indices, each below `N`. -/
theorem bootstrap_percentile_pairing (x y : List ℕ) (confidence : ℚ)
    (draws : ℕ → List ℕ) (hlen : x.length = y.length)
    (hmd : minDim (x.zip y) ≠ 0)
    (hvalid : ∀ k < 1000, (draws k).length = x.length ∧ ∀ i ∈ draws k, i < x.length) :
    ((List.range 1000).map fun k =>
        bootValue x y (minDim (x.zip y)) (draws k)).length = 1000 ∧
    (∀ k < 1000, (resample x (draws k)).length = x.length ∧
      (resample x (draws k)).zip (resample y (draws k)) =
        (draws k).map fun i => (x.zip y).getD i (0, 0)) ∧
    (cramers_v_with_ci x y confidence draws).2.1 =
      percentile ((1 - confidence) / 2 * 100)
        ((List.range 1000).map fun k => bootValue x y (minDim (x.zip y)) (draws k)) ∧
    (cramers_v_with_ci x y confidence draws).2.2 =
      percentile ((1 - (1 - confidence) / 2) * 100)
        ((List.range 1000).map fun k => bootValue x y (minDim (x.zip y)) (draws k)) := by
  refine ⟨by simp, ?_, ?_, ?_⟩
  · intro k hk
    obtain ⟨hklen, hki⟩ := hvalid k hk
    refine ⟨by simp [resample, hklen], ?_⟩
    rw [resample, resample, List.zip_map']
    apply List.map_congr_left
    intro i hi
    have hix : i < x.length := hki i hi
    have hiy : i < y.length := hlen ▸ hix
    have hz : i < (x.zip y).length := by
      rw [List.length_zip]
      omega
    rw [getD_of_lt _ _ _ hix, getD_of_lt _ _ _ hiy, getD_of_lt _ _ _ hz, List.get_zip]
  · simp only [cramers_v_with_ci]
    rw [if_neg hmd]
  · simp only [cramers_v_with_ci]
    rw [if_neg hmd]

/-- Witness for `bootstrap_percentile_pairing` on the pair `[0,1]`, `[0,1]`
with the constant draw stream `[0, 1]`. -/
theorem bootstrap_percentile_pairing_witness :
    (minDim (([0, 1] : List ℕ).zip [0, 1]) ≠ 0 ∧
      ∀ k < 1000, ((fun _ : ℕ => ([0, 1] : List ℕ)) k).length = ([0, 1] : List ℕ).length ∧
        ∀ i ∈ (fun _ : ℕ => ([0, 1] : List ℕ)) k, i < ([0, 1] : List ℕ).length) ∧
    (resample [0, 1] ((fun _ : ℕ => ([0, 1] : List ℕ)) 0)).zip
        (resample [0, 1] ((fun _ : ℕ => ([0, 1] : List ℕ)) 0)) =
      ((fun _ : ℕ => ([0, 1] : List ℕ)) 0).map
        fun i => (([0, 1] : List ℕ).zip [0, 1]).getD i (0, 0) :=
  ⟨⟨by decide, fun k _ => ⟨rfl, by
      show ∀ i ∈ ([0, 1] : List ℕ), i < ([0, 1] : List ℕ).length
      decide⟩⟩,
    ((bootstrap_percentile_pairing [0, 1] [0, 1] (95 / 100) (fun _ => [0, 1]) rfl
      (by decide) (fun k _ => ⟨rfl, by
        show ∀ i ∈ ([0, 1] : List ℕ), i < ([0, 1] : List ℕ).length
        decide⟩)).2.1 0 (by norm_num)).2⟩

/-- Claim C3, amended: For every invocation (any series, any confidence in
[0, 1], any draw stream) the returned interval satisfies `lower ≤ upper`;
but the point estimate need not lie inside the interval — the percentile
interval of the bootstrap distribution can exclude it (see
`ci_excludes_point_estimate`). -/
theorem ci_lower_le_upper (x y : List ℕ) (confidence : ℚ) (draws : ℕ → List ℕ)
    (h0 : 0 ≤ confidence) (h1 : confidence ≤ 1) :
    (cramers_v_with_ci x y confidence draws).2.1 ≤
      (cramers_v_with_ci x y confidence draws).2.2 := by
  simp only [cramers_v_with_ci]
  split
  · exact le_refl 0
  · apply percentile_mono
    · have hlen : ((List.range 1000).map fun k =>
          bootValue x y (minDim (x.zip y)) (draws k)).length = 1000 := by simp
      intro hnil
      rw [hnil] at hlen
      simp at hlen
    · linarith
    · linarith
    · linarith

/-- Witness for `ci_lower_le_upper` at a concrete invocation. -/
theorem ci_lower_le_upper_witness :
    ((0 : ℚ) ≤ 95 / 100 ∧ (95 : ℚ) / 100 ≤ 1) ∧
    (cramers_v_with_ci [0, 1] [0, 1] (95 / 100) fun _ => [0, 1]).2.1 ≤
      (cramers_v_with_ci [0, 1] [0, 1] (95 / 100) fun _ => [0, 1]).2.2 :=
  ⟨⟨by norm_num, by norm_num⟩,
    ci_lower_le_upper [0, 1] [0, 1] (95 / 100) (fun _ => [0, 1]) (by norm_num) (by norm_num)⟩

/-- Claim C3, counterexample: On the perfectly associated pair `[0,1,2]`,
`[0,1,2]` (point estimate 1), a draw stream that returns the valid resample
`[0, 0, 1]` (3 indices below 3, drawn with replacement) on every iteration
makes every bootstrap value `sqrt(1/32)`, so the returned interval is the
point `sqrt(1/32) < 1`: the upper bound is strictly below the point
estimate, refuting `lower ≤ point ≤ upper`. -/
theorem ci_excludes_point_estimate :
    (cramers_v_with_ci [0, 1, 2] [0, 1, 2] (95 / 100) fun _ => [0, 0, 1]).2.2 <
      (cramers_v_with_ci [0, 1, 2] [0, 1, 2] (95 / 100) fun _ => [0, 0, 1]).1 := by
  have hmd : minDim (([0, 1, 2] : List ℕ).zip [0, 1, 2]) = 2 := by decide
  have hmdne : minDim (([0, 1, 2] : List ℕ).zip [0, 1, 2]) ≠ 0 := by decide
  have htt : tableTotal (([0, 1, 2] : List ℕ).zip [0, 1, 2]) = 3 := by decide
  have hres : resample [0, 1, 2] [0, 0, 1] = [0, 0, 1] := by decide
  have hboot : bootValue [0, 1, 2] [0, 1, 2]
      (minDim (([0, 1, 2] : List ℕ).zip [0, 1, 2])) [0, 0, 1] =
      Real.sqrt ((1 / 32 : ℚ) : ℝ) := by
    rw [bootValue, if_pos (by rw [hmd]; norm_num), hres, chi2_stat_small2, hmd]
    norm_num
  have hrepl : ((List.range 1000).map fun k =>
      bootValue [0, 1, 2] [0, 1, 2] (minDim (([0, 1, 2] : List ℕ).zip [0, 1, 2]))
        ((fun _ : ℕ => ([0, 0, 1] : List ℕ)) k)) =
      List.replicate 1000 (Real.sqrt ((1 / 32 : ℚ) : ℝ)) := by
    rw [List.eq_replicate_iff]
    refine ⟨by rw [List.length_map, List.length_range], fun b hb => ?_⟩
    obtain ⟨k, _, hk⟩ := List.mem_map.1 hb
    rw [← hk, hboot]
  have hv : (cramers_v_with_ci [0, 1, 2] [0, 1, 2] (95 / 100) fun _ => [0, 0, 1]).1 = 1 := by
    rw [cramers_v_with_ci_fst _ _ _ _ hmdne, chi2_stat_perfect3, htt, hmd]
    norm_num [Real.sqrt_one]
  have hp2 : percentile ((1 - (1 - 95 / 100) / 2) * 100)
      (List.replicate 1000 (Real.sqrt ((1 / 32 : ℚ) : ℝ))) =
      Real.sqrt ((1 / 32 : ℚ) : ℝ) :=
    percentile_replicate (by norm_num) (by norm_num) (by norm_num) _
  have hupper : (cramers_v_with_ci [0, 1, 2] [0, 1, 2] (95 / 100) fun _ => [0, 0, 1]).2.2 =
      Real.sqrt ((1 / 32 : ℚ) : ℝ) := by
    rw [cramers_v_with_ci_upper _ _ _ _ hmdne, hrepl, hp2]
  rw [hupper, hv]
  have h32 : ((1 / 32 : ℚ) : ℝ) < 1 ^ 2 := by norm_num
  calc Real.sqrt ((1 / 32 : ℚ) : ℝ) < 1 := (Real.sqrt_lt' one_pos).2 h32
    _ ≤ 1 := le_refl 1

end YSOPlot
